import Mathlib

/-!
Shallow embedding of the cerberus-chat retrieval pipeline (chunker, hybrid
retriever, reranker) together with proofs and refutations of properties
stated in its natural-language specification.

Conventions of the embedding:
* JavaScript numbers are modelled as rationals (ℚ); array indices and
  lengths as naturals.
* A JS `Map<string, SearchResult>` is modelled as an association list in
  insertion order; `Map.set` on an existing key replaces the value in
  place (keeping the key's original position), otherwise appends — exactly
  the iteration-order semantics of a JS Map.
* `Array.prototype.sort` (stable since ES2019) is modelled by a stable
  insertion sort descending by score.
* External collaborators (the vector engine's raw query results, the
  OpenAI relevance scorer) are passed in as explicit data; a scorer
  outcome of `none` models the batch scoring call throwing.
-/

namespace CerberusChat

/-- Metadata attached to each chunk (`ChunkMetadata` in `schema.ts`).
Optional fields of the TS interface are `Option`s. -/
structure ChunkMetadata where
  ticketUid : String
  ticketMask : String
  ticketSubject : String
  messageUid : Option String
  isOutgoing : Option Bool
  chunkIndex : Nat
  totalChunks : Nat
  timestamp : Option String
  groupId : Option Nat
  bucketId : Option Nat
deriving DecidableEq, Repr

/-- `SearchResult` in `schema.ts`. -/
structure SearchResult where
  id : String
  text : String
  score : ℚ
  metadata : ChunkMetadata
deriving DecidableEq, Repr

/-- `RerankResult` in `schema.ts`. -/
structure RerankResult where
  id : String
  text : String
  score : ℚ
  originalIndex : Nat
  metadata : ChunkMetadata
deriving DecidableEq, Repr

/-! ### Stable descending sort by score

Models `xs.sort((a, b) => b.score - a.score)`: JS `Array.prototype.sort`
is stable, so elements of equal score keep their relative input order. -/

/-- Stable insertion of `x` into `l`, descending by `f`: `x` goes before
the first element whose score is not larger than `f x`, hence after every
earlier-inserted element of strictly larger score and before equals that
come later in the original list. -/
def insertByScoreDesc (f : α → ℚ) (x : α) : List α → List α
  | [] => [x]
  | y :: ys => if f y ≤ f x then x :: y :: ys else y :: insertByScoreDesc f x ys

/-- Stable sort, descending by `f`. -/
def sortByScoreDesc (f : α → ℚ) (l : List α) : List α :=
  l.foldr (insertByScoreDesc f) []

theorem insertByScoreDesc_perm (f : α → ℚ) (x : α) (l : List α) :
    List.Perm (insertByScoreDesc f x l) (x :: l) := by
  induction l with
  | nil => simp [insertByScoreDesc]
  | cons y ys ih =>
    rw [insertByScoreDesc]
    split
    · exact List.Perm.refl _
    · exact (List.Perm.cons y ih).trans (List.Perm.swap x y ys)

theorem sortByScoreDesc_perm (f : α → ℚ) (l : List α) :
    List.Perm (sortByScoreDesc f l) l := by
  induction l with
  | nil => simp [sortByScoreDesc]
  | cons x xs ih =>
    have h1 := insertByScoreDesc_perm f x (sortByScoreDesc f xs)
    exact h1.trans (List.Perm.cons x ih)

theorem insertByScoreDesc_pairwise (f : α → ℚ) (x : α) (l : List α)
    (h : l.Pairwise (fun a b => f b ≤ f a)) :
    (insertByScoreDesc f x l).Pairwise (fun a b => f b ≤ f a) := by
  induction l with
  | nil => simp [insertByScoreDesc]
  | cons y ys ih =>
    rw [insertByScoreDesc]
    rcases List.pairwise_cons.mp h with ⟨hy, hys⟩
    split
    · rename_i hle
      refine List.pairwise_cons.mpr ⟨?_, h⟩
      intro z hz
      rcases List.mem_cons.mp hz with hz | hz
      · subst hz; exact hle
      · exact le_trans (hy z hz) hle
    · rename_i hgt
      push_neg at hgt
      refine List.pairwise_cons.mpr ⟨?_, ih hys⟩
      intro z hz
      have hz2 := (insertByScoreDesc_perm f x ys).mem_iff.mp hz
      rcases List.mem_cons.mp hz2 with hz2 | hz2
      · subst hz2; exact le_of_lt hgt
      · exact hy z hz2

theorem sortByScoreDesc_pairwise (f : α → ℚ) (l : List α) :
    (sortByScoreDesc f l).Pairwise (fun a b => f b ≤ f a) := by
  induction l with
  | nil => simp [sortByScoreDesc]
  | cons x xs ih => exact insertByScoreDesc_pairwise f x _ ih

theorem insertByScoreDesc_filter_score (f : α → ℚ) (c : ℚ) (x : α) (l : List α) :
    (insertByScoreDesc f x l).filter (fun a => decide (f a = c)) =
      (x :: l).filter (fun a => decide (f a = c)) := by
  induction l with
  | nil => rfl
  | cons y ys ih =>
    rw [insertByScoreDesc]
    split
    · rfl
    · rename_i hgt
      push_neg at hgt
      by_cases hx : f x = c
      · have hy : ¬ (f y = c) := by
          intro hy
          rw [hx, hy] at hgt
          exact lt_irrefl c hgt
        simp only [List.filter_cons, hx, hy, decide_eq_true_eq, decide_eq_false hy,
          if_neg, ih]
        simp [List.filter_cons, hx, hy]
      · simp only [List.filter_cons]
        by_cases hy : f y = c
        · simp only [decide_eq_true hy, if_pos, ih]
          simp [List.filter_cons, hx, hy]
        · simp only [decide_eq_false hy, if_neg, ih]
          simp [List.filter_cons, hx, hy]

theorem sortByScoreDesc_filter_score (f : α → ℚ) (c : ℚ) (l : List α) :
    (sortByScoreDesc f l).filter (fun a => decide (f a = c)) =
      l.filter (fun a => decide (f a = c)) := by
  induction l with
  | nil => rfl
  | cons x xs ih =>
    have h1 := insertByScoreDesc_filter_score f c x (sortByScoreDesc f xs)
    rw [sortByScoreDesc, List.foldr_cons]
    rw [show List.foldr (insertByScoreDesc f) [] xs = sortByScoreDesc f xs from rfl] at *
    rw [h1, List.filter_cons, List.filter_cons, ih]

/-! ### Chunker (`chunkText` in `src/ingest/chunker.ts`)

```
const words = text.split(/\s+/).filter((w) => w.length > 0);
let start = 0;
while (start < words.length) {
    const end = Math.min(start + chunkSize, words.length);
    const chunk = words.slice(start, end).join(" ");
    if (chunk.length >= config.chunking.minChunkSize) chunks.push(chunk);
    if (end === words.length) break;
    start += Math.max(1, chunkSize - overlap);
}
```

`minChunkSize` is read from `config.chunking.minChunkSize` (default 50) in
the source; it is an explicit parameter here. -/

/-- The word list of a text: split on whitespace, dropping empty pieces
(`text.split(/\s+/).filter((w) => w.length > 0)`). -/
def splitWords (text : String) : List String :=
  (text.split fun c => c == ' ' || c == '\t' || c == '\n' || c == '\r').filter
    fun w => !w.isEmpty

/-- The `while` loop of `chunkText`, directly on the word list. One
iteration at index `start` slices `words[start, min (start+chunkSize) N)`,
joins with single spaces, keeps the joined chunk if its character length
clears `minChunkSize`, and advances by `max 1 (chunkSize - overlap)`
unless the slice already reached the end of the words.

The loop is written with a fuel argument to make it structurally
recursive; every iteration advances `start` by at least one word, so
`words.length - start` iterations always suffice and the `0`-fuel branch
is unreachable from the entry point (`chunkLoop_fuel` below makes the
result independent of any sufficient fuel). -/
def chunkLoop (words : List String) (chunkSize overlap minChunkSize : ℕ) :
    ℕ → ℕ → List String
  | 0, _ => []
  | fuel + 1, start =>
    if start < words.length then
      let e := min (start + chunkSize) words.length
      let chunk := String.intercalate " " ((words.drop start).take chunkSize)
      let here := if minChunkSize ≤ chunk.length then [chunk] else []
      if e = words.length then here
      else here ++ chunkLoop words chunkSize overlap minChunkSize fuel
        (start + max 1 (chunkSize - overlap))
    else []

/-- `chunkText` on an already-split word list. -/
def chunkWords (words : List String) (chunkSize overlap minChunkSize : ℕ) :
    List String :=
  if words.length = 0 then []
  else chunkLoop words chunkSize overlap minChunkSize words.length 0

/-- `chunkText(text, chunkSize, overlap)` with the configured
`minChunkSize` made explicit. -/
def chunkText (text : String) (chunkSize overlap minChunkSize : ℕ) : List String :=
  chunkWords (splitWords text) chunkSize overlap minChunkSize

/-- The same sliding-window walk, but recording each window as its word
list, with no minimum-size floor and no joining — the windows the loop of
`chunkText` slices before the floor test. -/
def windowLoop (words : List String) (chunkSize overlap : ℕ) :
    ℕ → ℕ → List (List String)
  | 0, _ => []
  | fuel + 1, start =>
    if start < words.length then
      let e := min (start + chunkSize) words.length
      ((words.drop start).take chunkSize) ::
        (if e = words.length then []
         else windowLoop words chunkSize overlap fuel
           (start + max 1 (chunkSize - overlap)))
    else []

/-- All windows sliced by `chunkText`'s loop. -/
def chunkWindows (words : List String) (chunkSize overlap : ℕ) : List (List String) :=
  windowLoop words chunkSize overlap words.length 0

/-- Stitching a chunk sequence back together: the first window whole, then
each later window with its `overlap`-word prefix removed. -/
def stitchList (overlap : ℕ) : List (List String) → List String
  | [] => []
  | c :: cs => c ++ (cs.map (List.drop overlap)).flatten

/-! Step lemmas unfolding one iteration of the two loops. -/

theorem chunkLoop_cont {words : List String} {S O m fuel start start2 : ℕ}
    {cw : List String}
    (h1 : start < words.length) (h2 : start + S < words.length)
    (hcw : (words.drop start).take S = cw)
    (hm : m ≤ (String.intercalate " " cw).length)
    (hstep : start2 = start + max 1 (S - O)) :
    chunkLoop words S O m (fuel + 1) start =
      String.intercalate " " cw :: chunkLoop words S O m fuel start2 := by
  subst hcw
  subst hstep
  rw [chunkLoop]
  rw [if_pos h1]
  simp only [min_eq_left (le_of_lt h2)]
  rw [if_neg (Nat.ne_of_lt h2)]
  rw [if_pos hm]
  simp

theorem chunkLoop_last {words : List String} {S O m fuel start : ℕ}
    {cw : List String}
    (h1 : start < words.length) (h2 : words.length ≤ start + S)
    (hcw : (words.drop start).take S = cw)
    (hm : m ≤ (String.intercalate " " cw).length) :
    chunkLoop words S O m (fuel + 1) start = [String.intercalate " " cw] := by
  subst hcw
  rw [chunkLoop]
  rw [if_pos h1]
  simp only [min_eq_right h2, if_true]
  rw [if_pos hm]

theorem windowLoop_cont {words : List String} {S O fuel start start2 : ℕ}
    (h1 : start < words.length) (h2 : start + S < words.length)
    (hstep : start2 = start + max 1 (S - O)) :
    windowLoop words S O (fuel + 1) start =
      ((words.drop start).take S) :: windowLoop words S O fuel start2 := by
  subst hstep
  rw [windowLoop]
  rw [if_pos h1]
  simp only [min_eq_left (le_of_lt h2)]
  rw [if_neg (Nat.ne_of_lt h2)]

theorem windowLoop_last {words : List String} {S O fuel start : ℕ}
    (h1 : start < words.length) (h2 : words.length ≤ start + S) :
    windowLoop words S O (fuel + 1) start = [(words.drop start).take S] := by
  rw [windowLoop]
  rw [if_pos h1]
  simp only [min_eq_right h2, if_true]

/-! Character counts of joined chunks made of single-letter words, used to
discharge the `minChunkSize` floor on concrete inputs. -/

theorem intercalate_go_length (acc : String) :
    ∀ n, (String.intercalate.go acc " " (List.replicate n "a")).length =
      acc.length + 2 * n := by
  intro n
  induction n generalizing acc with
  | zero => simp [String.intercalate.go]
  | succ k ih =>
    rw [List.replicate_succ, String.intercalate.go, ih]
    simp [String.length_append, show (" ").length = 1 from rfl,
      show ("a").length = 1 from rfl]
    ring

theorem length_intercalate_replicate (n : ℕ) :
    (String.intercalate " " (List.replicate (n + 1) "a")).length = 2 * n + 1 := by
  rw [List.replicate_succ, String.intercalate, intercalate_go_length]
  rw [show ("a").length = 1 from rfl]
  omega

/-- Evaluation of `chunkText` on 1000 single-letter words with
`chunkSize = 500`, `overlap = 128`, `minChunkSize = 50`: the loop visits
`start = 0, 372, 744` and emits three chunks. -/
theorem chunkWords_1000_eval :
    chunkWords (List.replicate 1000 "a") 500 128 50 =
      [String.intercalate " " (List.replicate 500 "a"),
       String.intercalate " " (List.replicate 500 "a"),
       String.intercalate " " (List.replicate 256 "a")] := by
  have h500 : (String.intercalate " " (List.replicate 500 "a")).length = 999 := by
    have h := length_intercalate_replicate 499
    norm_num at h
    exact h
  have h256 : (String.intercalate " " (List.replicate 256 "a")).length = 511 := by
    have h := length_intercalate_replicate 255
    norm_num at h
    exact h
  have hw1 : ((List.replicate 1000 "a").drop 0).take 500 = List.replicate 500 "a" := by
    rw [List.drop_replicate, List.take_replicate]
    norm_num
  have hw2 : ((List.replicate 1000 "a").drop 372).take 500 = List.replicate 500 "a" := by
    rw [List.drop_replicate, List.take_replicate]
    norm_num
  have hw3 : ((List.replicate 1000 "a").drop 744).take 500 = List.replicate 256 "a" := by
    rw [List.drop_replicate, List.take_replicate]
    norm_num
  have hlen : (List.replicate 1000 "a").length = 1000 := List.length_replicate _ _
  rw [chunkWords, hlen, if_neg (by norm_num)]
  rw [show (1000 : ℕ) = 999 + 1 from rfl]
  rw [chunkLoop_cont (by rw [hlen]; norm_num) (by rw [hlen]; norm_num) hw1
    (by rw [h500]; norm_num) (show 372 = 0 + max 1 (500 - 128) by norm_num)]
  rw [show (999 : ℕ) = 998 + 1 from rfl]
  rw [chunkLoop_cont (by rw [hlen]; norm_num) (by rw [hlen]; norm_num) hw2
    (by rw [h500]; norm_num) (show 744 = 372 + max 1 (500 - 128) by norm_num)]
  rw [show (998 : ℕ) = 997 + 1 from rfl]
  rw [chunkLoop_last (by rw [hlen]; norm_num) (by rw [hlen]; norm_num) hw3
    (by rw [h256]; norm_num)]

/-- With a zero minimum-size floor every window passes the floor test, so
the emitted chunks are exactly the joined windows. -/
theorem chunkLoop_zero_floor (words : List String) (S O : ℕ) :
    ∀ fuel start, chunkLoop words S O 0 fuel start =
      (windowLoop words S O fuel start).map (String.intercalate " ") := by
  intro fuel
  induction fuel with
  | zero => intro start; rfl
  | succ f ih =>
    intro start
    rw [chunkLoop, windowLoop]
    by_cases h : start < words.length
    · rw [if_pos h, if_pos h]
      simp only [Nat.zero_le, if_pos]
      by_cases he : min (start + S) words.length = words.length
      · rw [if_pos he, if_pos he]
        simp
      · rw [if_neg he, if_neg he]
        simp [ih]
    · rw [if_neg h, if_neg h]
      rfl

/-- Removing each window's `overlap`-word prefix and flattening yields the
word suffix from `start + overlap` on: consecutive windows overlap by
exactly `overlap` words. -/
theorem windowLoop_dropFlatten (words : List String) (S O : ℕ) (hO : O < S) :
    ∀ fuel start, words.length - start ≤ fuel → start < words.length →
      ((windowLoop words S O fuel start).map (List.drop O)).flatten =
        words.drop (start + O) := by
  intro fuel
  induction fuel with
  | zero => intro start h1 h2; omega
  | succ f ih =>
    intro start h1 h2
    by_cases hend : words.length ≤ start + S
    · rw [windowLoop_last h2 hend]
      have htk : (words.drop start).take S = words.drop start := by
        apply List.take_of_length_le
        rw [List.length_drop]
        omega
      simp only [List.map_cons, List.map_nil, List.flatten_cons, List.flatten_nil,
        List.append_nil, htk]
      rw [List.drop_drop]
    · push_neg at hend
      have hstep : max 1 (S - O) = S - O := max_eq_right (by omega)
      rw [windowLoop_cont h2 hend rfl]
      have h2b : start + max 1 (S - O) < words.length := by omega
      have h1b : words.length - (start + max 1 (S - O)) ≤ f := by
        rw [hstep]
        omega
      rw [List.map_cons, List.flatten_cons, ih _ h1b h2b]
      rw [List.drop_take, List.drop_drop]
      have hsplit := List.take_append_drop (S - O) (words.drop (start + O))
      rw [List.drop_drop] at hsplit
      rw [show start + O + (S - O) = start + max 1 (S - O) + O by omega] at hsplit
      exact hsplit

/-- Reconstruction: keeping the first window whole and stripping the
`overlap`-word prefix of every later window restores the word suffix the
walk started from. -/
theorem windowLoop_stitch (words : List String) (S O : ℕ) (hO : O < S)
    (fuel start : ℕ) (h1 : words.length - start ≤ fuel)
    (h2 : start < words.length) :
    stitchList O (windowLoop words S O fuel start) = words.drop start := by
  obtain ⟨f, rfl⟩ : ∃ f, fuel = f + 1 := ⟨fuel - 1, by omega⟩
  by_cases hend : words.length ≤ start + S
  · rw [windowLoop_last h2 hend, stitchList]
    simp only [List.map_nil, List.flatten_nil, List.append_nil]
    apply List.take_of_length_le
    rw [List.length_drop]
    omega
  · push_neg at hend
    have hstep : max 1 (S - O) = S - O := max_eq_right (by omega)
    rw [windowLoop_cont h2 hend rfl, stitchList]
    have h2b : start + max 1 (S - O) < words.length := by omega
    have h1b : words.length - (start + max 1 (S - O)) ≤ f := by
      rw [hstep]
      omega
    rw [windowLoop_dropFlatten words S O hO f _ h1b h2b]
    rw [show start + max 1 (S - O) + O = start + S by omega]
    have hsplit := List.take_append_drop S (words.drop start)
    rw [List.drop_drop] at hsplit
    exact hsplit

/-! ### Hybrid retriever (`hybridSearch` in `src/db/vectra-store.ts` and
`src/db/chroma.ts`, `retrieveRelevantChunks` in `src/rag/selector.ts`)

Both stores implement the identical fusion:

```
const resultsMap = new Map<string, SearchResult>();
keywordResults.forEach((result) => {
    resultsMap.set(result.id, { ...result, score: result.score * 1.2 });
});
semanticResults.forEach((result) => {
    const existing = resultsMap.get(result.id);
    if (existing) {
        resultsMap.set(result.id, { ...result, score: (existing.score + result.score) / 2 });
    } else {
        resultsMap.set(result.id, result);
    }
});
return Array.from(resultsMap.values()).sort((a, b) => b.score - a.score);
```

The engine-side raw results (`metaKeywordSearch` output and the vector
engine's `queryItems` answer) are passed in as data. -/

/-- `Map.set`: replace in place if the key is present (a JS Map keeps the
key's original insertion position), else append. -/
def mapSet : List (String × SearchResult) → String → SearchResult →
    List (String × SearchResult)
  | [], k, v => [(k, v)]
  | p :: rest, k, v => if p.1 = k then (k, v) :: rest else p :: mapSet rest k v

/-- `Map.get`: the value at the first (only) occurrence of the key. -/
def mapGet : List (String × SearchResult) → String → Option SearchResult
  | [], _ => none
  | p :: rest, k => if p.1 = k then some p.2 else mapGet rest k

/-- First `forEach` of the fusion: insert every keyword result with its
score boosted by 1.2. -/
def boostKeyword (m : List (String × SearchResult))
    (keywordResults : List SearchResult) : List (String × SearchResult) :=
  keywordResults.foldl
    (fun m r => mapSet m r.id { r with score := r.score * (6 / 5) }) m

/-- Second `forEach` of the fusion: insert every semantic result, averaging
with the already-present (boosted keyword) score on id collision. -/
def addSemantic (m : List (String × SearchResult))
    (semanticResults : List SearchResult) : List (String × SearchResult) :=
  semanticResults.foldl
    (fun m r =>
      match mapGet m r.id with
      | some existing => mapSet m r.id { r with score := (existing.score + r.score) / 2 }
      | none => mapSet m r.id r) m

/-- The fused map built by `hybridSearch` from the two result lists. -/
def fusedMap (keywordResults semanticResults : List SearchResult) :
    List (String × SearchResult) :=
  addSemantic (boostKeyword [] keywordResults) semanticResults

/-- `Array.from(resultsMap.values())`. -/
def fusedValues (keywordResults semanticResults : List SearchResult) :
    List SearchResult :=
  (fusedMap keywordResults semanticResults).map (fun p => p.2)

/-- `semanticSearch(queryEmbedding, topK, minScore)`: the engine's raw
top-K answer filtered by the minimum similarity score
(`results.filter((result) => result.score >= minScore)`). -/
def semanticSearch (raw : List SearchResult) (minScore : ℚ) : List SearchResult :=
  raw.filter fun r => decide (minScore ≤ r.score)

/-- `hybridSearch(query, queryEmbedding, keywordTopK, semanticTopK)`: the
semantic arm is invoked as `this.semanticSearch(queryEmbedding,
semanticTopK)`, leaving `minScore` at its declared default `0.5`; then the
two lists are fused and the fused values sorted descending by score. -/
def hybridSearch (keywordResults rawSemantic : List SearchResult) :
    List SearchResult :=
  sortByScoreDesc SearchResult.score
    (fusedValues keywordResults (semanticSearch rawSemantic (1 / 2)))

/-- Modelled from the spec (for comparison with `hybridSearch`): §4.3 has
the retriever issue `vectorSearch(queryVector, vectorTopK, 0)`, a zero
score floor, with no filtering before fusion. -/
def hybridSearchSpecC1 (keywordResults rawSemantic : List SearchResult) :
    List SearchResult :=
  sortByScoreDesc SearchResult.score
    (fusedValues keywordResults (semanticSearch rawSemantic 0))

/-- `retrieveRelevantChunks`: hybrid search, then
`results.filter((r) => r.score >= config.retrieval.minSimilarityScore)`. -/
def retrieveRelevantChunks (keywordResults rawSemantic : List SearchResult)
    (minSimilarityScore : ℚ) : List SearchResult :=
  (hybridSearch keywordResults rawSemantic).filter
    fun r => decide (minSimilarityScore ≤ r.score)

/-! Association-list lemmas for the fused map. -/

theorem mapGet_mapSet_self (m : List (String × SearchResult)) (k : String)
    (v : SearchResult) : mapGet (mapSet m k v) k = some v := by
  induction m with
  | nil => simp [mapSet, mapGet]
  | cons p rest ih =>
    rw [mapSet]
    by_cases h : p.1 = k
    · rw [if_pos h, mapGet, if_pos rfl]
    · rw [if_neg h, mapGet, if_neg h, ih]

theorem mapGet_mapSet_ne (m : List (String × SearchResult)) (k k2 : String)
    (v : SearchResult) (h : k2 ≠ k) : mapGet (mapSet m k v) k2 = mapGet m k2 := by
  have hk : k ≠ k2 := Ne.symm h
  induction m with
  | nil => simp [mapSet, mapGet, hk]
  | cons p rest ih =>
    rw [mapSet]
    by_cases hp : p.1 = k
    · rw [if_pos hp]
      simp [mapGet, hk, hp]
    · rw [if_neg hp]
      by_cases hp2 : p.1 = k2
      · simp [mapGet, hp2]
      · simp [mapGet, hp2, ih]

theorem mem_of_mapSet (m : List (String × SearchResult)) (k : String)
    (v : SearchResult) (p : String × SearchResult) (h : p ∈ mapSet m k v) :
    p ∈ m ∨ p = (k, v) := by
  induction m with
  | nil =>
    rw [mapSet] at h
    right
    simpa using h
  | cons q rest ih =>
    rw [mapSet] at h
    by_cases hq : q.1 = k
    · rw [if_pos hq] at h
      rcases List.mem_cons.mp h with h | h
      · right; exact h
      · left; exact List.mem_cons_of_mem q h
    · rw [if_neg hq] at h
      rcases List.mem_cons.mp h with h | h
      · left; exact h ▸ List.mem_cons_self q rest
      · rcases ih h with h | h
        · left; exact List.mem_cons_of_mem q h
        · right; exact h

theorem mem_values_of_mapGet (m : List (String × SearchResult)) (k : String)
    (v : SearchResult) (h : mapGet m k = some v) : v ∈ m.map (fun p => p.2) := by
  induction m with
  | nil => simp [mapGet] at h
  | cons p rest ih =>
    rw [mapGet] at h
    by_cases hp : p.1 = k
    · rw [if_pos hp] at h
      simp only [Option.some_inj] at h
      simp [h.symm]
    · rw [if_neg hp] at h
      simp [ih h]

theorem boostKeyword_get_not_mem (kw : List SearchResult)
    (m : List (String × SearchResult)) (id : String)
    (h : id ∉ kw.map SearchResult.id) :
    mapGet (boostKeyword m kw) id = mapGet m id := by
  induction kw generalizing m with
  | nil => rfl
  | cons k rest ih =>
    simp only [List.map_cons, List.mem_cons, not_or] at h
    rw [boostKeyword, List.foldl_cons]
    rw [show List.foldl _ _ rest = boostKeyword (mapSet m k.id _) rest from rfl]
    rw [ih _ h.2, mapGet_mapSet_ne _ _ _ _ h.1]

theorem boostKeyword_get_mem (kw : List SearchResult)
    (m : List (String × SearchResult)) (id : String) (k : SearchResult)
    (hnd : (kw.map SearchResult.id).Nodup) (hk : k ∈ kw) (hid : k.id = id) :
    mapGet (boostKeyword m kw) id = some { k with score := k.score * (6 / 5) } := by
  induction kw generalizing m with
  | nil => exact absurd hk (List.not_mem_nil k)
  | cons q rest ih =>
    rw [List.map_cons, List.nodup_cons] at hnd
    rw [boostKeyword, List.foldl_cons]
    rw [show List.foldl _ _ rest = boostKeyword (mapSet m q.id _) rest from rfl]
    rcases List.mem_cons.mp hk with hk | hk
    · subst hk
      rw [boostKeyword_get_not_mem _ _ _ (hid ▸ hnd.1), hid, mapGet_mapSet_self]
    · exact ih _ hnd.2 hk

theorem addSemantic_get_not_mem (sem : List SearchResult)
    (m : List (String × SearchResult)) (id : String)
    (h : id ∉ sem.map SearchResult.id) :
    mapGet (addSemantic m sem) id = mapGet m id := by
  induction sem generalizing m with
  | nil => rfl
  | cons s rest ih =>
    simp only [List.map_cons, List.mem_cons, not_or] at h
    rw [addSemantic, List.foldl_cons]
    rw [show List.foldl _ _ rest = addSemantic _ rest from rfl]
    rw [ih _ h.2]
    cases mapGet m s.id with
    | none => exact mapGet_mapSet_ne _ _ _ _ h.1
    | some existing => exact mapGet_mapSet_ne _ _ _ _ h.1

theorem addSemantic_get_mem (sem : List SearchResult)
    (m : List (String × SearchResult)) (id : String) (s : SearchResult)
    (hnd : (sem.map SearchResult.id).Nodup) (hs : s ∈ sem) (hid : s.id = id) :
    mapGet (addSemantic m sem) id =
      some (match mapGet m id with
            | some existing => { s with score := (existing.score + s.score) / 2 }
            | none => s) := by
  induction sem generalizing m with
  | nil => exact absurd hs (List.not_mem_nil s)
  | cons q rest ih =>
    rw [List.map_cons, List.nodup_cons] at hnd
    rw [addSemantic, List.foldl_cons]
    rw [show List.foldl _ _ rest = addSemantic _ rest from rfl]
    rcases List.mem_cons.mp hs with hs | hs
    · subst hs
      rw [addSemantic_get_not_mem _ _ _ (hid ▸ hnd.1), hid]
      cases mapGet m id with
      | none => rw [mapGet_mapSet_self]
      | some existing => rw [mapGet_mapSet_self]
    · have hne : id ≠ q.id := by
        intro hh
        exact hnd.1 (hh ▸ hid ▸ List.mem_map_of_mem SearchResult.id hs)
      have hget : mapGet (match mapGet m q.id with
          | some existing => mapSet m q.id { q with score := (existing.score + q.score) / 2 }
          | none => mapSet m q.id q) id = mapGet m id := by
        cases mapGet m q.id with
        | none => exact mapGet_mapSet_ne _ _ _ _ hne
        | some existing => exact mapGet_mapSet_ne _ _ _ _ hne
      rw [ih _ hnd.2 hs, hget]

theorem mem_boostKeyword (kw : List SearchResult)
    (m : List (String × SearchResult)) (p : String × SearchResult)
    (h : p ∈ boostKeyword m kw) :
    p ∈ m ∨ ∃ k ∈ kw, p = (k.id, { k with score := k.score * (6 / 5) }) := by
  induction kw generalizing m with
  | nil => exact Or.inl h
  | cons k rest ih =>
    rw [boostKeyword, List.foldl_cons] at h
    rw [show List.foldl _ _ rest = boostKeyword (mapSet m k.id _) rest from rfl] at h
    rcases ih _ h with h | ⟨q, hq, hp⟩
    · rcases mem_of_mapSet _ _ _ _ h with h | h
      · exact Or.inl h
      · exact Or.inr ⟨k, List.mem_cons_self k rest, h⟩
    · exact Or.inr ⟨q, List.mem_cons_of_mem k hq, hp⟩

theorem mem_addSemantic (sem : List SearchResult)
    (m : List (String × SearchResult)) (p : String × SearchResult)
    (h : p ∈ addSemantic m sem) :
    p ∈ m ∨ ∃ s ∈ sem, p.2.id = s.id := by
  induction sem generalizing m with
  | nil => exact Or.inl h
  | cons s rest ih =>
    rw [addSemantic, List.foldl_cons] at h
    rw [show List.foldl _ _ rest = addSemantic _ rest from rfl] at h
    rcases ih _ h with h | ⟨q, hq, hp⟩
    · have hcases : p ∈ m ∨ p.2.id = s.id := by
        cases hm : mapGet m s.id with
        | none =>
          rw [hm] at h
          rcases mem_of_mapSet _ _ _ _ h with h | h
          · exact Or.inl h
          · right; rw [h]
        | some existing =>
          rw [hm] at h
          rcases mem_of_mapSet _ _ _ _ h with h | h
          · exact Or.inl h
          · right; rw [h]
      rcases hcases with h | h
      · exact Or.inl h
      · exact Or.inr ⟨s, List.mem_cons_self s rest, h⟩
    · exact Or.inr ⟨q, List.mem_cons_of_mem s hq, hp⟩

/-- Every fused candidate's id comes from one of the two input lists. -/
theorem fusedValues_origin (kw sem : List SearchResult) (r : SearchResult)
    (h : r ∈ fusedValues kw sem) :
    (∃ k ∈ kw, r.id = k.id) ∨ ∃ s ∈ sem, r.id = s.id := by
  rw [fusedValues] at h
  rcases List.mem_map.mp h with ⟨p, hp, hr⟩
  rcases mem_addSemantic _ _ _ hp with hp | ⟨s, hs, hid⟩
  · rcases mem_boostKeyword _ _ _ hp with hp | ⟨k, hk, hpk⟩
    · exact absurd hp (List.not_mem_nil p)
    · left
      exact ⟨k, hk, by rw [← hr, hpk]⟩
  · right
    exact ⟨s, hs, by rw [← hr]; exact hid⟩

/-! Shared concrete records for counterexamples and witnesses. -/

/-- A fixed metadata record used by the concrete examples. -/
def exMeta : ChunkMetadata :=
  { ticketUid := "t1", ticketMask := "M-1", ticketSubject := "subj",
    messageUid := none, isOutgoing := none, chunkIndex := 0, totalChunks := 1,
    timestamp := none, groupId := none, bucketId := none }

/-- Lexical result `p1` with score 0.6. -/
def exK1 : SearchResult := { id := "p1", text := "L1", score := 3 / 5, metadata := exMeta }

/-- Vector result `p1` with score 0.8. -/
def exS1 : SearchResult := { id := "p1", text := "V1", score := 4 / 5, metadata := exMeta }

/-- Vector result `p2` with score 0.7. -/
def exS2 : SearchResult := { id := "p2", text := "V2", score := 7 / 10, metadata := exMeta }

/-- A vector result whose raw engine score 0.3 lies below the default 0.5
floor of `semanticSearch`. -/
def exLowSem : SearchResult := { id := "p", text := "T", score := 3 / 10, metadata := exMeta }

/-- Two equal-score keyword results whose ids descend. -/
def exTieB : SearchResult := { id := "b", text := "B", score := 1 / 2, metadata := exMeta }

/-- See `exTieB`. -/
def exTieA : SearchResult := { id := "a", text := "A", score := 1 / 2, metadata := exMeta }

/-- **C2** (confirmed). Fusion keyed by passage id: a candidate in both
lists fuses to `(1.2 × lexical + vector) / 2`, a lexical-only candidate to
`1.2 × lexical`, a vector-only candidate keeps its vector score; the fused
map's entries are exactly the candidates `hybridSearch` goes on to sort. -/
theorem fusion_score_rule (kw sem : List SearchResult) (id : String)
    (hkw : (kw.map SearchResult.id).Nodup)
    (hsem : (sem.map SearchResult.id).Nodup) :
    (∀ k ∈ kw, ∀ s ∈ sem, k.id = id → s.id = id →
        mapGet (fusedMap kw sem) id =
          some { s with score := (k.score * (6 / 5) + s.score) / 2 })
    ∧ (∀ k ∈ kw, k.id = id → id ∉ sem.map SearchResult.id →
        mapGet (fusedMap kw sem) id = some { k with score := k.score * (6 / 5) })
    ∧ (∀ s ∈ sem, s.id = id → id ∉ kw.map SearchResult.id →
        mapGet (fusedMap kw sem) id = some s)
    ∧ ∀ r : SearchResult, mapGet (fusedMap kw sem) id = some r →
        r ∈ fusedValues kw sem := by
  refine ⟨?_, ?_, ?_, ?_⟩
  · intro k hk s hs hkid hsid
    rw [fusedMap, addSemantic_get_mem sem _ id s hsem hs hsid,
      boostKeyword_get_mem kw [] id k hkw hk hkid]
  · intro k hk hkid hnot
    rw [fusedMap, addSemantic_get_not_mem sem _ id hnot,
      boostKeyword_get_mem kw [] id k hkw hk hkid]
  · intro s hs hsid hnot
    rw [fusedMap, addSemantic_get_mem sem _ id s hsem hs hsid,
      boostKeyword_get_not_mem kw [] id hnot]
    rfl
  · intro r h
    exact mem_values_of_mapGet _ _ _ h

/-- Witness for C2, the spec's own example: lexical `p1 = 0.6`, vector
`p1 = 0.8`, `p2 = 0.7` fuse to `p1 = 0.76` and `p2 = 0.7`. -/
theorem fusion_score_rule_witness :
    (([exK1].map SearchResult.id).Nodup ∧ ([exS1, exS2].map SearchResult.id).Nodup)
    ∧ mapGet (fusedMap [exK1] [exS1, exS2]) "p1" =
        some { id := "p1", text := "V1", score := 19 / 25, metadata := exMeta }
    ∧ mapGet (fusedMap [exK1] [exS1, exS2]) "p2" = some exS2 := by
  refine ⟨⟨by decide, by decide⟩, ?_, ?_⟩
  · have h := (fusion_score_rule [exK1] [exS1, exS2] "p1" (by decide) (by decide)).1
      exK1 (by simp) exS1 (by simp) rfl rfl
    rw [h]
    simp only [exS1, exK1, exMeta]
    norm_num [SearchResult.mk.injEq]
  · have h := (fusion_score_rule [exK1] [exS1, exS2] "p2" (by decide) (by decide)).2.2.1
      exS2 (by simp) rfl (by decide)
    rw [h]

/-- **C1** (counterexample). `hybridSearch` does not issue the vector
search with a zero floor: a raw vector result of score 0.3 is filtered out
before fusion by the default 0.5 floor, while the spec-described retriever
(`hybridSearchSpecC1`, floor 0) would keep it. -/
theorem hybridSearch_floor_counterexample :
    hybridSearch [] [exLowSem] = [] ∧ hybridSearchSpecC1 [] [exLowSem] = [exLowSem] := by
  constructor
  · rw [hybridSearch]
    have hsem : semanticSearch [exLowSem] (1 / 2) = [] := by
      rw [semanticSearch]
      norm_num [List.filter_cons, exLowSem]
    rw [hsem]
    rfl
  · rw [hybridSearchSpecC1]
    have hsem : semanticSearch [exLowSem] 0 = [exLowSem] := by
      rw [semanticSearch]
      norm_num [List.filter_cons, exLowSem]
    rw [hsem]
    rfl

/-- **C1** (amended). The vector arm of `hybridSearch` is filtered at the
default floor 0.5 before fusion: every fused candidate comes from the
keyword list or from a raw vector result whose score already cleared 0.5.
The caller `retrieveRelevantChunks` applies `minSimilarityScore` only
after fusion, to the fused output. -/
theorem hybrid_prefusion_floor (kw raw : List SearchResult) :
    (∀ r ∈ hybridSearch kw raw,
        (∃ k ∈ kw, r.id = k.id) ∨ ∃ s ∈ raw, r.id = s.id ∧ 1 / 2 ≤ s.score)
    ∧ ∀ minSim : ℚ, ∀ r ∈ retrieveRelevantChunks kw raw minSim,
        minSim ≤ r.score ∧ r ∈ hybridSearch kw raw := by
  constructor
  · intro r hr
    rw [hybridSearch] at hr
    have hr2 := (sortByScoreDesc_perm SearchResult.score _).mem_iff.mp hr
    rcases fusedValues_origin _ _ _ hr2 with ⟨k, hk, hid⟩ | ⟨s, hs, hid⟩
    · exact Or.inl ⟨k, hk, hid⟩
    · rw [semanticSearch] at hs
      rcases List.mem_filter.mp hs with ⟨hs1, hs2⟩
      exact Or.inr ⟨s, hs1, hid, of_decide_eq_true hs2⟩
  · intro minSim r hr
    rw [retrieveRelevantChunks] at hr
    rcases List.mem_filter.mp hr with ⟨h1, h2⟩
    exact ⟨of_decide_eq_true h2, h1⟩

/-- Witness for the amended C1 at the spec's example data. -/
theorem hybrid_prefusion_floor_witness :
    ((∃ k ∈ [exK1],
        ({ exS1 with score := (exK1.score * (6 / 5) + exS1.score) / 2 } :
          SearchResult).id = k.id)
      ∨ ∃ s ∈ [exS1],
          ({ exS1 with score := (exK1.score * (6 / 5) + exS1.score) / 2 } :
            SearchResult).id = s.id ∧ 1 / 2 ≤ s.score)
    ∧ (1 : ℚ) / 2 ≤ ({ exS1 with score := (exK1.score * (6 / 5) + exS1.score) / 2 } :
        SearchResult).score := by
  have hsem : semanticSearch [exS1] (1 / 2) = [exS1] := by
    rw [semanticSearch]
    norm_num [List.filter_cons, exS1]
  have hmem : ({ exS1 with score := (exK1.score * (6 / 5) + exS1.score) / 2 } :
      SearchResult) ∈ hybridSearch [exK1] [exS1] := by
    rw [hybridSearch, hsem]
    exact List.mem_singleton.mpr rfl
  have hfilter : ({ exS1 with score := (exK1.score * (6 / 5) + exS1.score) / 2 } :
      SearchResult) ∈ retrieveRelevantChunks [exK1] [exS1] (1 / 2) := by
    rw [retrieveRelevantChunks]
    refine List.mem_filter.mpr ⟨hmem, ?_⟩
    simp only [exS1, exK1]
    norm_num
  exact ⟨(hybrid_prefusion_floor [exK1] [exS1]).1 _ hmem,
    ((hybrid_prefusion_floor [exK1] [exS1]).2 (1 / 2) _ hfilter).1⟩

/-- **C3** (counterexample). Two keyword-only candidates with equal fused
score 0.6 and ids `"b"`, `"a"` (in that input order) leave `hybridSearch`
in the order `["b", "a"]`: the stable sort keeps Map insertion order for
ties, it does not reorder them to ascending id, although `"a" < "b"`. -/
theorem hybrid_tie_order_counterexample :
    (hybridSearch [exTieB, exTieA] []).map SearchResult.id = ["b", "a"]
    ∧ (hybridSearch [exTieB, exTieA] []).map SearchResult.score = [3 / 5, 3 / 5]
    ∧ ("a" : String) < "b" := by
  have heval : hybridSearch [exTieB, exTieA] [] =
      [{ exTieB with score := exTieB.score * (6 / 5) },
       { exTieA with score := exTieA.score * (6 / 5) }] := by
    rw [hybridSearch]
    show sortByScoreDesc SearchResult.score
      [{ exTieB with score := exTieB.score * (6 / 5) },
       { exTieA with score := exTieA.score * (6 / 5) }] = _
    rw [sortByScoreDesc, List.foldr_cons, List.foldr_cons, List.foldr_nil,
      insertByScoreDesc, insertByScoreDesc]
    rw [if_pos (by simp only [exTieA, exTieB]; norm_num)]
  rw [heval]
  refine ⟨rfl, ?_, ?_⟩
  · simp only [List.map_cons, List.map_nil, exTieA, exTieB]
    norm_num
  · rw [String.lt_iff_toList_lt]
    decide

/-- **C3** (amended). `hybridSearch` output is sorted descending by fused
score, and candidates of equal score keep the fused map's insertion order
(keyword-phase entries in keyword order, then new semantic entries in
semantic order) — the JS sort is stable and has no id tie-break. -/
theorem hybrid_sorted_stable (kw raw : List SearchResult) :
    (hybridSearch kw raw).Pairwise (fun a b => b.score ≤ a.score)
    ∧ ∀ c : ℚ, (hybridSearch kw raw).filter (fun r => decide (r.score = c)) =
        (fusedValues kw (semanticSearch raw (1 / 2))).filter
          (fun r => decide (r.score = c)) := by
  constructor
  · exact sortByScoreDesc_pairwise SearchResult.score _
  · intro c
    exact sortByScoreDesc_filter_score SearchResult.score c _

/-! ### Reranker (`src/rag/reranker.ts` and `rerankChunks` in
`src/openai.ts`)

The external relevance-scoring call is represented by its outcome: `some
rawScores` when the chat completion returned and its content parsed as a
JSON array, `none` when the call or the parse threw (the `catch` branch of
`rerankChunks`). -/

/-- `rerankChunks(query, chunks, costTracker)`: on success the parsed
scores are normalized to `[0, 1]` by `score / 10`; on failure the `catch`
returns `chunks.map(() => 0.5)` — no error escapes. (The `isNaN` guard of
the success path maps NaN to 0; NaN has no counterpart in ℚ.) -/
def rerankChunks (scorerOutcome : Option (List ℚ)) (chunks : List String) :
    List ℚ :=
  match scorerOutcome with
  | some scores => scores.map fun s => s / 10
  | none => chunks.map fun _ => 1 / 2

/-- `rerankWithOpenAI(query, results, costTracker, topK)`: empty input
short-circuits; otherwise one record per result carrying
`rerankScores[index]`, sorted descending by the new score (stable JS
sort), truncated to `topK`. -/
def rerankWithOpenAI (scorerOutcome : Option (List ℚ))
    (results : List SearchResult) (topK : ℕ) : List RerankResult :=
  if results.isEmpty then []
  else
    let texts := results.map SearchResult.text
    let rerankScores := rerankChunks scorerOutcome texts
    let reranked := results.enum.map fun p =>
      { id := p.2.id, text := p.2.text, score := rerankScores.getD p.1 0,
        originalIndex := p.1, metadata := p.2.metadata }
    (sortByScoreDesc RerankResult.score reranked).take topK

/-- `rerankByScore(results, topK)`: `results.sort((a, b) => b.score -
a.score)` sorts the caller's array **in place**; the slice-and-map then
builds fresh records. The model returns the pair (returned records,
post-call state of the caller's array). -/
def rerankByScore (results : List SearchResult) (topK : ℕ) :
    List RerankResult × List SearchResult :=
  let sorted := sortByScoreDesc SearchResult.score results
  (((sorted.take topK).enum).map fun p =>
    { id := p.2.id, text := p.2.text, score := p.2.score,
      originalIndex := p.1, metadata := p.2.metadata },
   sorted)

/-- The `for (const result of reranked)` walk of `rerankWithDiversity`:
a candidate from a seen ticket is accepted only while
`diverse.length < topK / 2` (JS real division); a candidate from an unseen
ticket is always accepted and marks the ticket seen; after each iteration
the loop breaks once `diverse.length >= topK`. The post-push break check
of the source is inlined into each branch. -/
def diversityLoop (topK : ℕ) :
    List RerankResult → List RerankResult → List String → List RerankResult
  | [], diverse, _ => diverse
  | r :: rest, diverse, seen =>
    if r.metadata.ticketUid ∈ seen then
      if (diverse.length : ℚ) < (topK : ℚ) / 2 then
        if topK ≤ (diverse ++ [r]).length then diverse ++ [r]
        else diversityLoop topK rest (diverse ++ [r]) seen
      else
        if topK ≤ diverse.length then diverse
        else diversityLoop topK rest diverse seen
    else
      if topK ≤ (diverse ++ [r]).length then diverse ++ [r]
      else diversityLoop topK rest (diverse ++ [r])
        (r.metadata.ticketUid :: seen)

/-- `rerankWithDiversity(query, results, costTracker, topK,
diversityThreshold)`: first a full un-truncated base rerank
(`rerankWithOpenAI(query, results, costTracker, results.length)`), then
the diversity walk. `diversityThreshold` is accepted but never read by the
source. -/
def rerankWithDiversity (scorerOutcome : Option (List ℚ))
    (results : List SearchResult) (topK : ℕ) (diversityThreshold : ℚ) :
    List RerankResult :=
  if results.isEmpty then []
  else diversityLoop topK
    (rerankWithOpenAI scorerOutcome results results.length) [] []

/-- Whatever the scorer returned, `rerankWithOpenAI` emits
`min topK results.length` records. -/
theorem rerankWithOpenAI_length (scorerOutcome : Option (List ℚ))
    (results : List SearchResult) (topK : ℕ) :
    (rerankWithOpenAI scorerOutcome results topK).length = min topK results.length := by
  rw [rerankWithOpenAI]
  by_cases h : results.isEmpty
  · rw [if_pos h]
    rw [List.isEmpty_iff] at h
    simp [h]
  · rw [if_neg h]
    simp only [List.length_take]
    congr 1
    rw [(sortByScoreDesc_perm RerankResult.score _).length_eq, List.length_map,
      List.enum_length]

/-- The JS tie condition `diverse.length < topK / 2` in whole numbers. -/
theorem length_lt_half_iff (a b : ℕ) :
    ((a : ℚ) < (b : ℚ) / 2) ↔ 2 * a < b := by
  rw [lt_div_iff₀ (by norm_num : (0 : ℚ) < 2)]
  constructor
  · intro h
    have h2 : (a * 2 : ℕ) < b := by exact_mod_cast h
    omega
  · intro h
    have h2 : ((a * 2 : ℕ) : ℚ) < b := by exact_mod_cast (by omega : a * 2 < b)
    exact_mod_cast h2

/-- Cap invariant of the diversity walk: as long as every accepted
candidate's ticket is recorded in `seen` and no ticket exceeds
`⌈topK/2⌉ = (topK+1)/2` acceptances so far, the finished walk keeps every
ticket within that cap. -/
theorem diversityLoop_count (K : ℕ) (hK : 1 ≤ K) (uid : String) :
    ∀ (input diverse : List RerankResult) (seen : List String),
      (∀ r ∈ diverse, r.metadata.ticketUid ∈ seen) →
      diverse.countP (fun r => decide (r.metadata.ticketUid = uid)) ≤ (K + 1) / 2 →
      (diversityLoop K input diverse seen).countP
        (fun r => decide (r.metadata.ticketUid = uid)) ≤ (K + 1) / 2 := by
  intro input
  induction input with
  | nil => intro d s _ h2; exact h2
  | cons r rest ih =>
    intro d s h1 h2
    have hcount : ∀ hr : 2 * d.length < K,
        (d ++ [r]).countP (fun x => decide (x.metadata.ticketUid = uid)) ≤ (K + 1) / 2 := by
      intro hr
      rw [List.countP_append]
      have hd := List.countP_le_length (l := d) (p := fun x => decide (x.metadata.ticketUid = uid))
      have hone : List.countP (fun x => decide (x.metadata.ticketUid = uid)) [r] ≤ 1 :=
        List.countP_le_length _
      omega
    rw [diversityLoop]
    by_cases hseen : r.metadata.ticketUid ∈ s
    · rw [if_pos hseen]
      by_cases hhalf : (d.length : ℚ) < (K : ℚ) / 2
      · rw [if_pos hhalf]
        have hr := (length_lt_half_iff d.length K).mp hhalf
        by_cases hbrk : K ≤ (d ++ [r]).length
        · rw [if_pos hbrk]
          exact hcount hr
        · rw [if_neg hbrk]
          refine ih (d ++ [r]) s ?_ (hcount hr)
          intro x hx
          rcases List.mem_append.mp hx with hx | hx
          · exact h1 x hx
          · rw [List.mem_singleton.mp hx]
            exact hseen
      · rw [if_neg hhalf]
        by_cases hbrk : K ≤ d.length
        · rw [if_pos hbrk]
          exact h2
        · rw [if_neg hbrk]
          exact ih d s h1 h2
    · rw [if_neg hseen]
      have hzero : ∀ hu : r.metadata.ticketUid = uid,
          d.countP (fun x => decide (x.metadata.ticketUid = uid)) = 0 := by
        intro hu
        rw [List.countP_eq_zero]
        intro x hx
        simp only [decide_eq_true_eq]
        intro hxu
        exact hseen (hu ▸ hxu ▸ h1 x hx)
      have hcount2 : (d ++ [r]).countP
          (fun x => decide (x.metadata.ticketUid = uid)) ≤ (K + 1) / 2 := by
        rw [List.countP_append]
        by_cases hu : r.metadata.ticketUid = uid
        · rw [hzero hu]
          have hone : List.countP (fun x => decide (x.metadata.ticketUid = uid)) [r] ≤ 1 :=
            List.countP_le_length _
          omega
        · rw [List.countP_cons, List.countP_nil]
          simp only [decide_eq_true_eq, hu, if_false]
          omega
      by_cases hbrk : K ≤ (d ++ [r]).length
      · rw [if_pos hbrk]
        exact hcount2
      · rw [if_neg hbrk]
        refine ih (d ++ [r]) (r.metadata.ticketUid :: s) ?_ hcount2
        intro x hx
        rcases List.mem_append.mp hx with hx | hx
        · exact List.mem_cons_of_mem _ (h1 x hx)
        · rw [List.mem_singleton.mp hx]
          exact List.mem_cons_self _ _

/-- The walk never accepts more than `topK` results (entering with fewer
than `topK` already accepted). -/
theorem diversityLoop_length (K : ℕ) :
    ∀ (input diverse : List RerankResult) (seen : List String),
      diverse.length < K → (diversityLoop K input diverse seen).length ≤ K := by
  intro input
  induction input with
  | nil => intro d s h; exact le_of_lt h
  | cons r rest ih =>
    intro d s h
    rw [diversityLoop]
    by_cases hseen : r.metadata.ticketUid ∈ s
    · rw [if_pos hseen]
      by_cases hhalf : (d.length : ℚ) < (K : ℚ) / 2
      · rw [if_pos hhalf]
        by_cases hbrk : K ≤ (d ++ [r]).length
        · rw [if_pos hbrk]
          rw [List.length_append, List.length_singleton]
          omega
        · rw [if_neg hbrk]
          rw [List.length_append, List.length_singleton] at hbrk
          exact ih (d ++ [r]) s (by rw [List.length_append, List.length_singleton]; omega)
      · rw [if_neg hhalf]
        by_cases hbrk : K ≤ d.length
        · rw [if_pos hbrk]
          omega
        · rw [if_neg hbrk]
          exact ih d s (by omega)
    · rw [if_neg hseen]
      by_cases hbrk : K ≤ (d ++ [r]).length
      · rw [if_pos hbrk]
        rw [List.length_append, List.length_singleton]
        omega
      · rw [if_neg hbrk]
        rw [List.length_append, List.length_singleton] at hbrk
        exact ih (d ++ [r]) _ (by rw [List.length_append, List.length_singleton]; omega)

/-- The walk only ever appends to its accumulator, and what it appends is
a subsequence of the remaining input. -/
theorem diversityLoop_append (K : ℕ) :
    ∀ (input diverse : List RerankResult) (seen : List String),
      ∃ t, diversityLoop K input diverse seen = diverse ++ t
        ∧ List.Sublist t input := by
  intro input
  induction input with
  | nil => intro d s; exact ⟨[], by rw [diversityLoop, List.append_nil], List.nil_sublist []⟩
  | cons r rest ih =>
    intro d s
    rw [diversityLoop]
    by_cases hseen : r.metadata.ticketUid ∈ s
    · rw [if_pos hseen]
      by_cases hhalf : (d.length : ℚ) < (K : ℚ) / 2
      · rw [if_pos hhalf]
        by_cases hbrk : K ≤ (d ++ [r]).length
        · rw [if_pos hbrk]
          exact ⟨[r], rfl, (List.nil_sublist rest).cons₂ r⟩
        · rw [if_neg hbrk]
          rcases ih (d ++ [r]) s with ⟨t, ht, hts⟩
          exact ⟨r :: t, by rw [ht, List.append_assoc]; rfl, hts.cons₂ r⟩
      · rw [if_neg hhalf]
        by_cases hbrk : K ≤ d.length
        · rw [if_pos hbrk]
          exact ⟨[], by rw [List.append_nil], List.nil_sublist _⟩
        · rw [if_neg hbrk]
          rcases ih d s with ⟨t, ht, hts⟩
          exact ⟨t, ht, List.sublist_cons_of_sublist r hts⟩
    · rw [if_neg hseen]
      by_cases hbrk : K ≤ (d ++ [r]).length
      · rw [if_pos hbrk]
        exact ⟨[r], rfl, (List.nil_sublist rest).cons₂ r⟩
      · rw [if_neg hbrk]
        rcases ih (d ++ [r]) (r.metadata.ticketUid :: s) with ⟨t, ht, hts⟩
        exact ⟨r :: t, by rw [ht, List.append_assoc]; rfl, hts.cons₂ r⟩

/-- **C4** (amended). For `topK = K ≥ 1`, no ticket contributes more than
`⌈K/2⌉ = (K+1)/2` results to `rerankWithDiversity`, and at most `K`
results are accepted in total. (At `K = 0` the cap fails: the first
candidate is pushed before the break check runs — see the
counterexample.) -/
theorem diversity_cap (scorerOutcome : Option (List ℚ))
    (results : List SearchResult) (K : ℕ) (uid : String) (dt : ℚ)
    (hK : 1 ≤ K) :
    (rerankWithDiversity scorerOutcome results K dt).countP
      (fun r => decide (r.metadata.ticketUid = uid)) ≤ (K + 1) / 2
    ∧ (rerankWithDiversity scorerOutcome results K dt).length ≤ K
    ∧ (∀ (r : RerankResult) (rest diverse : List RerankResult) (seen : List String),
        r.metadata.ticketUid ∉ seen → diverse.length < K →
        r ∈ diversityLoop K (r :: rest) diverse seen)
    ∧ ∀ (r : RerankResult) (rest diverse : List RerankResult) (seen : List String),
        r.metadata.ticketUid ∈ seen → ¬ ((diverse.length : ℚ) < (K : ℚ) / 2) →
        diverse.length < K →
        diversityLoop K (r :: rest) diverse seen =
          diversityLoop K rest diverse seen := by
  refine ⟨?_, ?_, ?_, ?_⟩
  · rw [rerankWithDiversity]
    by_cases h : results.isEmpty
    · rw [if_pos h]
      simp
    · rw [if_neg h]
      refine diversityLoop_count K hK uid _ [] [] ?_ (by simp)
      intro r hr
      exact absurd hr (List.not_mem_nil r)
  · rw [rerankWithDiversity]
    by_cases h : results.isEmpty
    · rw [if_pos h]
      simp
    · rw [if_neg h]
      exact diversityLoop_length K _ [] [] (by simpa using hK)
  · intro r rest diverse seen hseen hlen
    rw [diversityLoop, if_neg hseen]
    by_cases hbrk : K ≤ (diverse ++ [r]).length
    · rw [if_pos hbrk]
      exact List.mem_append_right diverse (List.mem_singleton.mpr rfl)
    · rw [if_neg hbrk]
      rcases diversityLoop_append K rest (diverse ++ [r])
        (r.metadata.ticketUid :: seen) with ⟨t, ht, _⟩
      rw [ht, List.append_assoc]
      exact List.mem_append_right diverse (List.mem_append_left t
        (List.mem_singleton.mpr rfl))
  · intro r rest diverse seen hseen hhalf hlen
    rw [diversityLoop, if_pos hseen, if_neg hhalf, if_neg (by omega)]

/-- Witness for the amended C4 at `K = 5` on a singleton candidate list
with a failing scorer. -/
theorem diversity_cap_witness :
    ((1 : ℕ) ≤ 5)
    ∧ (rerankWithDiversity none [exS1] 5 (4 / 5)).countP
        (fun r => decide (r.metadata.ticketUid = "t1")) ≤ (5 + 1) / 2
    ∧ (rerankWithDiversity none [exS1] 5 (4 / 5)).length ≤ 5 := by
  have h := diversity_cap none [exS1] 5 "t1" (4 / 5) (by norm_num)
  exact ⟨by norm_num, h.1, h.2.1⟩

/-- **C4** (counterexample). At `topK = 0` the claimed cap `⌈K/2⌉ = 0`
fails: the walk pushes the very first candidate before checking the
break condition, so one ticket contributes one result. -/
theorem diversity_cap_zero_counterexample :
    (rerankWithDiversity none [exS1] 0 (4 / 5)).countP
      (fun r => decide (r.metadata.ticketUid = "t1")) = 1
    ∧ ((0 : ℕ) + 1) / 2 = 0 := by
  exact ⟨rfl, rfl⟩

/-- **C5** (counterexample). With a failing scorer and `topK = 1`,
`rerankWithOpenAI` on two candidates returns 1 result, not
`candidates.length = 2`: the fallback is truncated to `topK` like any
other result. -/
theorem rerank_fallback_length_counterexample :
    (rerankWithOpenAI none [exS1, exS2] 1).length = 1
    ∧ ([exS1, exS2] : List SearchResult).length = 2 := by
  refine ⟨?_, rfl⟩
  rw [rerankWithOpenAI_length]
  rfl

/-- **C5** (amended). A batch scoring failure is non-fatal: `rerankChunks`
returns `candidates.length` neutral scores 0.5 instead of an error, and
`rerankWithOpenAI` then returns `min topK candidates.length` results
(`candidates.length` whenever `topK ≥ candidates.length`), every one
carrying score 0.5. -/
theorem rerank_failure_fallback (results : List SearchResult) (topK : ℕ) :
    rerankChunks none (results.map SearchResult.text) =
      List.replicate results.length (1 / 2)
    ∧ (rerankWithOpenAI none results topK).length = min topK results.length
    ∧ ∀ r ∈ rerankWithOpenAI none results topK, r.score = 1 / 2 := by
  refine ⟨?_, rerankWithOpenAI_length none results topK, ?_⟩
  · rw [rerankChunks]
    induction results with
    | nil => rfl
    | cons a t ih =>
      rw [List.map_cons, List.map_cons, List.length_cons, List.replicate_succ, ih]
  · intro r hr
    rw [rerankWithOpenAI] at hr
    by_cases h : results.isEmpty
    · rw [if_pos h] at hr
      exact absurd hr (List.not_mem_nil r)
    · rw [if_neg h] at hr
      have hr2 := List.mem_of_mem_take hr
      have hr3 := (sortByScoreDesc_perm RerankResult.score _).mem_iff.mp hr2
      rcases List.mem_map.mp hr3 with ⟨p, hp, hr4⟩
      have hlt : p.1 < results.length := by
        have hf := List.fst_lt_add_of_mem_enumFrom hp
        simpa using hf
      subst hr4
      simp only [rerankChunks, List.map_const', List.length_map]
      rw [List.getD_eq_getElem?_getD, List.getElem?_replicate, if_pos hlt]
      rfl

/-- Witness for the amended C5 on a singleton candidate list. -/
theorem rerank_failure_fallback_witness :
    rerankChunks none ([exS1].map SearchResult.text) = List.replicate 1 (1 / 2)
    ∧ (rerankWithOpenAI none [exS1] 5).length = min 5 1
    ∧ ({ id := "p1", text := "V1", score := 1 / 2, originalIndex := 0,
         metadata := exMeta } : RerankResult).score = 1 / 2 := by
  have h := rerank_failure_fallback [exS1] 5
  refine ⟨by simpa using h.1, by simpa using h.2.1, ?_⟩
  exact h.2.2 _ (List.mem_singleton.mpr rfl)

/-- **C9** (confirmed). For a non-empty candidate list, the diversity
output is a subsequence of the full (un-truncated) base-reranked order,
its scores are non-increasing, and its first element is the base rerank's
first (highest-scored) element, accepted unconditionally while no ticket
is yet represented. -/
theorem diversity_subsequence (scorerOutcome : Option (List ℚ))
    (results : List SearchResult) (K : ℕ) (dt : ℚ) (h : results ≠ []) :
    List.Sublist (rerankWithDiversity scorerOutcome results K dt)
      (rerankWithOpenAI scorerOutcome results results.length)
    ∧ (rerankWithDiversity scorerOutcome results K dt).Pairwise
        (fun a b => b.score ≤ a.score)
    ∧ (rerankWithDiversity scorerOutcome results K dt).head? =
        (rerankWithOpenAI scorerOutcome results results.length).head? := by
  have hne : ¬ results.isEmpty := by simpa [List.isEmpty_iff] using h
  have hsub : List.Sublist (rerankWithDiversity scorerOutcome results K dt)
      (rerankWithOpenAI scorerOutcome results results.length) := by
    rw [rerankWithDiversity, if_neg hne]
    rcases diversityLoop_append K
      (rerankWithOpenAI scorerOutcome results results.length) [] [] with ⟨t, ht, hts⟩
    rw [ht]
    simpa using hts
  have hpair : (rerankWithOpenAI scorerOutcome results results.length).Pairwise
      (fun a b => b.score ≤ a.score) := by
    rw [rerankWithOpenAI, if_neg hne]
    exact (sortByScoreDesc_pairwise RerankResult.score _).sublist
      (List.take_sublist _ _)
  refine ⟨hsub, hpair.sublist hsub, ?_⟩
  have hlen : (rerankWithOpenAI scorerOutcome results results.length).length =
      results.length := by
    rw [rerankWithOpenAI_length]
    exact min_self _
  rcases hrr : rerankWithOpenAI scorerOutcome results results.length with _ | ⟨r0, rest⟩
  · exfalso
    rw [hrr] at hlen
    exact h (List.eq_nil_of_length_eq_zero (by simpa using hlen.symm))
  · rw [rerankWithDiversity, if_neg hne, hrr]
    rw [diversityLoop]
    rw [if_neg (List.not_mem_nil r0.metadata.ticketUid)]
    by_cases hbrk : K ≤ (([] : List RerankResult) ++ [r0]).length
    · rw [if_pos hbrk]
      rfl
    · rw [if_neg hbrk]
      rw [List.nil_append]
      rcases diversityLoop_append K rest [r0] [r0.metadata.ticketUid] with ⟨t, ht, _⟩
      rw [ht]
      rfl

/-- Witness for C9 on a singleton candidate list with a failing scorer. -/
theorem diversity_subsequence_witness :
    (([exS1] : List SearchResult) ≠ [])
    ∧ List.Sublist (rerankWithDiversity none [exS1] 5 (4 / 5))
        (rerankWithOpenAI none [exS1] 1)
    ∧ (rerankWithDiversity none [exS1] 5 (4 / 5)).Pairwise
        (fun a b => b.score ≤ a.score)
    ∧ (rerankWithDiversity none [exS1] 5 (4 / 5)).head? =
        (rerankWithOpenAI none [exS1] 1).head? := by
  have h := diversity_subsequence none [exS1] 5 (4 / 5) (by simp)
  exact ⟨by simp, by simpa using h.1, h.2.1, by simpa using h.2.2⟩

/-- **C10** (confirmed). `rerankByScore` sorts the caller's array in
place: the post-call array state is a permutation of the input ordered
descending by score (and differs from the original order on a concrete
unsorted input), while the returned list consists of fresh records built
from the sorted array. -/
theorem rerankByScore_inplace :
    (∀ (results : List SearchResult) (topK : ℕ),
        (rerankByScore results topK).2.Pairwise (fun a b => b.score ≤ a.score)
        ∧ List.Perm (rerankByScore results topK).2 results
        ∧ (rerankByScore results topK).1 =
            (((rerankByScore results topK).2.take topK).enum).map
              (fun p => ({ id := p.2.id, text := p.2.text, score := p.2.score,
                           originalIndex := p.1,
                           metadata := p.2.metadata } : RerankResult)))
    ∧ (rerankByScore [exTieA, exK1] 5).2 ≠ [exTieA, exK1] := by
  constructor
  · intro results topK
    exact ⟨sortByScoreDesc_pairwise SearchResult.score results,
      sortByScoreDesc_perm SearchResult.score results, rfl⟩
  · have heval : (rerankByScore [exTieA, exK1] 5).2 = [exK1, exTieA] := by
      show sortByScoreDesc SearchResult.score [exTieA, exK1] = _
      rw [sortByScoreDesc, List.foldr_cons, List.foldr_cons, List.foldr_nil]
      rw [show insertByScoreDesc SearchResult.score exK1 [] = [exK1] from rfl]
      rw [insertByScoreDesc]
      rw [if_neg (by simp only [exK1, exTieA]; norm_num)]
      rw [show insertByScoreDesc SearchResult.score exTieA [] = [exTieA] from rfl]
    intro hcontra
    rw [heval] at hcontra
    simp [exK1, exTieA] at hcontra

/-! ### Chunker claims -/

/-- **C6** (counterexample). `chunkText` on 1000 words with
`chunkSize = 500`, `overlap = 128`, `minChunkSize = 50` emits 3 chunks,
not the claimed 2: the walk visits `start = 0, 372, 744` and each slice is
capped at 500 words, so no chunk reaches from word 372 to word 1000. -/
theorem chunkText_1000_counterexample :
    (chunkWords (List.replicate 1000 "a") 500 128 50).length = 3
    ∧ (3 : ℕ) ≠ 2 := by
  refine ⟨?_, by norm_num⟩
  rw [chunkWords_1000_eval]
  rfl

/-- **C6** (amended). The 1000-word input yields exactly 3 chunks covering
word windows [0, 500), [372, 872) and [744, 1000); the final chunk is 256
words long. -/
theorem chunkText_1000_amended :
    chunkWords (List.replicate 1000 "a") 500 128 50 =
      [String.intercalate " " (((List.replicate 1000 "a").drop 0).take 500),
       String.intercalate " " (((List.replicate 1000 "a").drop 372).take 500),
       String.intercalate " " (((List.replicate 1000 "a").drop 744).take 500)]
    ∧ (((List.replicate 1000 "a").drop 372).take 500).length = 500
    ∧ (((List.replicate 1000 "a").drop 744).take 500).length = 256 := by
  have hw1 : ((List.replicate 1000 "a").drop 0).take 500 = List.replicate 500 "a" := by
    rw [List.drop_replicate, List.take_replicate]
    norm_num
  have hw2 : ((List.replicate 1000 "a").drop 372).take 500 = List.replicate 500 "a" := by
    rw [List.drop_replicate, List.take_replicate]
    norm_num
  have hw3 : ((List.replicate 1000 "a").drop 744).take 500 = List.replicate 256 "a" := by
    rw [List.drop_replicate, List.take_replicate]
    norm_num
  refine ⟨?_, ?_, ?_⟩
  · rw [chunkWords_1000_eval, hw1, hw2, hw3]
  · rw [hw2, List.length_replicate]
  · rw [hw3, List.length_replicate]

/-- **C7** (counterexample). With the production floor `minChunkSize = 50`
a one-word text is chunked to nothing: the only window joins to `"hi"`
(2 characters), is dropped by the floor, and word position 0 is covered by
no emitted chunk. -/
theorem chunker_coverage_counterexample :
    chunkWords ["hi"] 2 0 50 = [] ∧ (["hi"] : List String).length = 1 := by
  exact ⟨rfl, rfl⟩

/-- **C7** (amended). When no window is dropped by the minimum-size floor
(here `minChunkSize = 0`), the emitted chunks are exactly the joined
windows, stitching the windows (first whole, later ones minus their
`overlap`-word prefix) reconstructs the original word sequence, and every
word is covered by some window. With a positive floor, dropped sub-floor
windows lose their exclusive positions (see the counterexample). -/
theorem chunker_coverage (words : List String) (S O : ℕ) (hO : O < S) :
    chunkWords words S O 0 = (chunkWindows words S O).map (String.intercalate " ")
    ∧ stitchList O (chunkWindows words S O) = words
    ∧ ∀ w ∈ words, ∃ c ∈ chunkWindows words S O, w ∈ c := by
  refine ⟨?_, ?_, ?_⟩
  · rw [chunkWords, chunkWindows]
    by_cases h : words.length = 0
    · rw [if_pos h, h]
      rfl
    · rw [if_neg h]
      exact chunkLoop_zero_floor words S O words.length 0
  · rw [chunkWindows]
    by_cases h : words.length = 0
    · have hnil : words = [] := List.eq_nil_of_length_eq_zero h
      rw [h, hnil]
      rfl
    · exact (windowLoop_stitch words S O hO words.length 0 (by omega)
        (Nat.pos_of_ne_zero h)).trans (List.drop_zero words)
  · intro w hw
    have h : words.length ≠ 0 := by
      intro h0
      rw [List.eq_nil_of_length_eq_zero h0] at hw
      exact absurd hw (List.not_mem_nil w)
    have hst := windowLoop_stitch words S O hO words.length 0 (by omega)
      (Nat.pos_of_ne_zero h)
    rw [List.drop_zero] at hst
    rw [chunkWindows]
    rw [show windowLoop words S O words.length 0 = chunkWindows words S O from rfl] at hst ⊢
    rw [← hst] at hw
    cases hcw : chunkWindows words S O with
    | nil =>
      rw [hcw, stitchList] at hw
      exact absurd hw (List.not_mem_nil w)
    | cons c cs =>
      rw [hcw, stitchList] at hw
      rcases List.mem_append.mp hw with hw | hw
      · exact ⟨c, List.mem_cons_self c cs, hw⟩
      · rcases List.mem_flatten.mp hw with ⟨x, hx, hwx⟩
        rcases List.mem_map.mp hx with ⟨c2, hc2, hxc⟩
        refine ⟨c2, List.mem_cons_of_mem c hc2, ?_⟩
        rw [← hxc] at hwx
        exact List.drop_subset O c2 hwx

/-- Witness for the amended C7 on three words with `chunkSize = 2`,
`overlap = 1`. -/
theorem chunker_coverage_witness :
    ((1 : ℕ) < 2)
    ∧ chunkWords ["x", "y", "z"] 2 1 0 =
        (chunkWindows ["x", "y", "z"] 2 1).map (String.intercalate " ")
    ∧ stitchList 1 (chunkWindows ["x", "y", "z"] 2 1) = ["x", "y", "z"]
    ∧ ∀ w ∈ ["x", "y", "z"], ∃ c ∈ chunkWindows ["x", "y", "z"] 2 1, w ∈ c := by
  have h := chunker_coverage ["x", "y", "z"] 2 1 (by norm_num)
  exact ⟨by norm_num, h.1, h.2.1, h.2.2⟩

/-- **C8** (counterexample). Calling the chunker with
`overlap = 2 ≥ chunkSize = 1` is not rejected: the body of `chunkText`
contains no validation and no throw on this path, so the call returns
normally, advancing one word per step. -/
theorem chunk_overlap_accepted_counterexample :
    chunkWords ["aa", "bb", "cc"] 1 2 0 = ["aa", "bb", "cc"]
    ∧ chunkWindows ["aa", "bb", "cc"] 1 2 = [["aa"], ["bb"], ["cc"]] := by
  exact ⟨rfl, rfl⟩

/-- **C8** (amended). A misconfigured call with `overlap ≥ chunkSize` is
silently accepted, and only the documented clamp applies: the step becomes
`max 1 (chunkSize - overlap) = 1`, so the call behaves exactly as the
maximal legal overlap `chunkSize - 1` would; no error is raised. -/
theorem chunk_overlap_clamp (words : List String) (S O m : ℕ) (h : S ≤ O) :
    chunkWords words S O m = chunkWords words S (S - 1) m := by
  have h1 : max 1 (S - O) = 1 := by omega
  have h2 : max 1 (S - (S - 1)) = 1 := by omega
  have hloop : ∀ fuel start,
      chunkLoop words S O m fuel start = chunkLoop words S (S - 1) m fuel start := by
    intro fuel
    induction fuel with
    | zero => intro start; rfl
    | succ f ih =>
      intro start
      rw [chunkLoop, chunkLoop]
      by_cases hs : start < words.length
      · rw [if_pos hs, if_pos hs]
        simp only [h1, h2]
        by_cases he : min (start + S) words.length = words.length
        · rw [if_pos he, if_pos he]
        · rw [if_neg he, if_neg he, ih]
      · rw [if_neg hs, if_neg hs]
  rw [chunkWords, chunkWords]
  by_cases hw : words.length = 0
  · rw [if_pos hw, if_pos hw]
  · rw [if_neg hw, if_neg hw, hloop]

/-- Witness for the amended C8: `overlap = 2`, `chunkSize = 1` behaves as
`overlap = 0` (`= chunkSize - 1`). -/
theorem chunk_overlap_clamp_witness :
    ((1 : ℕ) ≤ 2)
    ∧ chunkWords ["aa", "bb", "cc"] 1 2 0 = chunkWords ["aa", "bb", "cc"] 1 0 0 := by
  exact ⟨by norm_num, chunk_overlap_clamp ["aa", "bb", "cc"] 1 2 0 (by norm_num)⟩

end CerberusChat
